import Mathlib

/-!
Verification of the dup-detector duplicate-file scanner (src/src-tauri/src).

Shallow embedding of the Rust sources:
types.rs (FileEntry, DuplicateGroup, ScanError, DeleteResult),
error.rs (ScannerError, is_recoverable), state.rs (AppState),
scanner/filter.rs (FileFilter), scanner/mod.rs (scan_directories, group_by_size),
hasher/mod.rs (hash_files_parallel), duplicates/mod.rs (find_duplicates),
commands.rs (the hashing phase of start_scan, delete_files).

File-system interaction (walkdir traversal, file reads, trash/remove calls) is
modelled by explicit oracle parameters passed to the embedded functions;
machine integers are Nat (the claims proved here involve no overflowing
arithmetic); the Rust HashMap built by entry().or_default().push() is embedded
as an insertion-ordered association list, which realizes the same map contents
with a fixed iteration order.
-/

namespace DupDetector

/-- FileEntry from types.rs: path, size in bytes, optional modification time. -/
structure FileEntry where
  path : String
  size : Nat
  modified : Option String
deriving DecidableEq, Repr

/-- DuplicateGroup from types.rs: content hash, per-file size, member files. -/
structure DuplicateGroup where
  hash : String
  size : Nat
  files : List FileEntry
deriving DecidableEq, Repr

/-- DuplicateGroup::wasted_space from types.rs: 0 when at most one file,
otherwise (len - 1) * size. -/
def DuplicateGroup.wasted_space (g : DuplicateGroup) : Nat :=
  if g.files.length ≤ 1 then 0
  else (g.files.length - 1) * g.size

/-- ScanError from types.rs: non-fatal per-entry error carried in the report. -/
structure ScanError where
  path : String
  message : String
deriving DecidableEq, Repr

/-- ScanOptions from types.rs. -/
structure ScanOptions where
  root_paths : List String
  min_file_size : Option Nat
  include_extensions : Option (List String)
  exclude_extensions : Option (List String)
  follow_symlinks : Bool

/-- DeleteError from types.rs: path that could not be deleted plus the reason. -/
structure DeleteError where
  path : String
  reason : String
deriving DecidableEq, Repr

/-- DeleteResult from types.rs: deleted paths and per-path failures. -/
structure DeleteResult where
  deleted : List String
  failed : List DeleteError
deriving DecidableEq, Repr

/-- ScannerError from error.rs; the std::io::Error payload of the Io variant is
modelled by its message string. -/
inductive ScannerError where
  | Io (msg : String)
  | PathNotFound (p : String)
  | PermissionDenied (p : String)
  | Cancelled
  | InvalidPath (p : String)
  | ScanInProgress
  | NoActiveScan
  | DeleteFailed (p : String)
  | TrashFailed (p : String)
  | FileDisappeared (p : String)
deriving DecidableEq, Repr

/-- ScannerError::is_recoverable from error.rs lines 56-63: matches
PermissionDenied, FileDisappeared and InvalidPath only. -/
def ScannerError.is_recoverable : ScannerError → Bool
  | .PermissionDenied _ => true
  | .FileDisappeared _ => true
  | .InvalidPath _ => true
  | _ => false

/-- Display strings of ScannerError from the thiserror attributes in error.rs,
used by hash_files_parallel which stores e.to_string(). -/
def ScannerError.message : ScannerError → String
  | .Io m => "IO error: " ++ m
  | .PathNotFound p => "Path not found: " ++ p
  | .PermissionDenied p => "Permission denied: " ++ p
  | .Cancelled => "Scan cancelled"
  | .InvalidPath p => "Invalid path: " ++ p
  | .ScanInProgress => "A scan is already in progress"
  | .NoActiveScan => "No scan is currently running"
  | .DeleteFailed p => "Failed to delete file: " ++ p
  | .TrashFailed p => "Failed to move to trash: " ++ p
  | .FileDisappeared p => "File no longer exists: " ++ p

/-- AppState from state.rs: scanning flag, cancellation flag, current scan id.
The shared atomics are modelled as plain fields with explicit state passing;
every access in state.rs uses sequentially consistent ordering. -/
structure AppState where
  is_scanning : Bool
  cancel_requested : Bool
  current_scan_id : Option String
deriving DecidableEq, Repr

/-- AppState::new from state.rs. -/
def AppState.new : AppState :=
  { is_scanning := false, cancel_requested := false, current_scan_id := none }

/-- AppState::try_start_scan from state.rs lines 39-54. The timestamp-derived
generate_scan_id is impure, so the fresh id is a parameter; the compare-exchange
on is_scanning succeeds exactly when it is currently false, and on success the
id is stored and the cancellation flag cleared. Returns the optional id with
the updated state. -/
def AppState.try_start_scan (s : AppState) (newId : String) :
    Option String × AppState :=
  if s.is_scanning = false then
    (some newId,
      { is_scanning := true, cancel_requested := false,
        current_scan_id := some newId })
  else
    (none, s)

/-- AppState::finish_scan from state.rs lines 57-61. -/
def AppState.finish_scan (_s : AppState) : AppState :=
  { is_scanning := false, cancel_requested := false, current_scan_id := none }

/-- AppState::request_cancel from state.rs lines 66-73: sets the flag only when
a scan is running, returns whether one was. -/
def AppState.request_cancel (s : AppState) : Bool × AppState :=
  if s.is_scanning then
    (true, { s with cancel_requested := true })
  else
    (false, s)

/-- AppState::is_cancel_requested from state.rs. -/
def AppState.is_cancel_requested (s : AppState) : Bool :=
  s.cancel_requested

/-- One HashMap entry(k).or_default().push(v) step from duplicates/mod.rs line 22
and scanner/mod.rs line 206, on the insertion-ordered association-list embedding
of the map: append v to the existing entry for k, or create a new entry. -/
def insertGrouped {κ α : Type} [DecidableEq κ] :
    List (κ × List α) → κ → α → List (κ × List α)
  | [], k, v => [(k, [v])]
  | (k', xs) :: rest, k, v =>
    if k' = k then (k', xs ++ [v]) :: rest
    else (k', xs) :: insertGrouped rest k v

/-- Contents of the Rust HashMap after pushing every (key, value) pair of the
input in order: per-key value lists are in input order, one entry per key. -/
def groupKV {κ α : Type} [DecidableEq κ] (l : List (κ × α)) :
    List (κ × List α) :=
  l.foldl (fun m p => insertGrouped m p.1 p.2) []

/-- Lookup of a key in the association-list embedding ([] when absent). -/
def lookupV {κ α : Type} [DecidableEq κ] (k : κ) :
    List (κ × List α) → List α
  | [] => []
  | (k', xs) :: rest => if k' = k then xs else lookupV k rest

/-- Keys of the association-list embedding, in insertion order. -/
def keysOf {κ α : Type} (m : List (κ × List α)) : List κ :=
  m.map Prod.fst

/-- find_duplicates from duplicates/mod.rs lines 17-45: group the (file, hash)
pairs by hash, keep groups with more than one file, take each group size from
its first member (unwrap_or 0), and sort by wasted space descending. Rust
sort_by_key with Reverse is a stable sort; it is embedded as the stable
insertion sort with the same descending key comparison, which produces the
identical output list. -/
def find_duplicates (l : List (FileEntry × String)) : List DuplicateGroup :=
  let hash_groups := groupKV (l.map (fun p => (p.2, p.1)))
  let groups := (hash_groups.filter (fun p => 1 < p.2.length)).map
    (fun p => DuplicateGroup.mk p.1 ((p.2.head?.map FileEntry.size).getD 0) p.2)
  groups.insertionSort (fun a b => b.wasted_space ≤ a.wasted_space)

/-- group_by_size from scanner/mod.rs lines 202-218: group files by exact size,
then retain only the groups with more than one file. -/
def group_by_size (files : List FileEntry) : List (Nat × List FileEntry) :=
  (groupKV (files.map (fun f => (f.size, f)))).filter (fun p => 1 < p.2.length)

/-- FileFilter from scanner/filter.rs: optional minimum size and optional
include/exclude extension sets (the HashSets are embedded as lists, used only
through membership). -/
structure FileFilter where
  min_size : Option Nat
  include_extensions : Option (List String)
  exclude_extensions : Option (List String)
deriving Repr

/-- FileFilter::new from scanner/filter.rs. -/
def FileFilter.new : FileFilter :=
  { min_size := none, include_extensions := none, exclude_extensions := none }

/-- FileFilter::with_min_size from scanner/filter.rs. -/
def FileFilter.with_min_size (f : FileFilter) (size : Nat) : FileFilter :=
  { f with min_size := some size }

/-- Lower-casing of a string, modelling str::to_lowercase character by
character (structural recursion over the character list so that concrete
instances compute). -/
def toLowerStr (s : String) : String :=
  String.mk (s.data.map Char.toLower)

/-- Splitting a character list at a separator, modelling str::split; the result
is always nonempty. -/
def splitOnChar (sep : Char) : List Char → List (List Char)
  | [] => [[]]
  | x :: xs =>
    match splitOnChar sep xs with
    | [] => [[]]
    | y :: ys => if x = sep then [] :: y :: ys else (x :: y) :: ys

/-- Extension normalization applied at configuration time in scanner/filter.rs
lines 45 and 60: lower-case, then trim all leading dots. -/
def normalize_ext (e : String) : String :=
  String.mk ((toLowerStr e).data.dropWhile (fun c => c = '.'))

/-- FileFilter::with_include_extensions from scanner/filter.rs lines 38-50:
an empty list clears the restriction, otherwise the normalized extensions are
collected. -/
def FileFilter.with_include_extensions (f : FileFilter) (extensions : List String) :
    FileFilter :=
  if extensions.isEmpty then { f with include_extensions := none }
  else { f with include_extensions := some (extensions.map normalize_ext) }

/-- FileFilter::with_exclude_extensions from scanner/filter.rs lines 53-65. -/
def FileFilter.with_exclude_extensions (f : FileFilter) (extensions : List String) :
    FileFilter :=
  if extensions.isEmpty then { f with exclude_extensions := none }
  else { f with exclude_extensions := some (extensions.map normalize_ext) }

/-- Final path component, modelling Rust Path::file_name on the slash-separated
path string: empty and current-directory components are skipped, and a final
parent-directory component has no file name. -/
def file_name (path : String) : Option String :=
  let comps := (splitOnChar '/' path.data).filter
    (fun c => ¬ c = [] ∧ ¬ c = ['.'])
  match comps.getLast? with
  | some c => if c = ['.', '.'] then none else some (String.mk c)
  | none => none

/-- Rust Path::extension: the portion of the file name after the last dot;
none when there is no file name, no dot, or the only dot is the leading
character of the file name. -/
def extension (path : String) : Option String :=
  match file_name path with
  | none => none
  | some name =>
    let chars := name.toList
    let afterRev := chars.reverse.takeWhile (fun c => ¬ c = '.')
    if afterRev.length = chars.length then none
    else if chars.length - afterRev.length - 1 = 0 then none
    else some (String.mk afterRev.reverse)

/-- FileFilter::matches from scanner/filter.rs lines 75-116: reject when below
the minimum size; extract and lower-case the extension; reject when the exclude
set contains it; when an include set is configured, a present extension must be
a member and an absent extension requires the empty string to be a member. -/
def FileFilter.matches (f : FileFilter) (path : String) (size : Nat) : Bool :=
  if f.min_size.any (fun m => size < m) then false
  else
    let ext := (extension path).map toLowerStr
    if (match f.exclude_extensions, ext with
        | some excludes, some e => excludes.contains e
        | _, _ => false) then false
    else
      match f.include_extensions, ext with
      | some includes, some e => includes.contains e
      | some includes, none => includes.contains ""
      | none, _ => true

/-- FileFilter::has_restrictions from scanner/filter.rs lines 119-123. -/
def FileFilter.has_restrictions (f : FileFilter) : Bool :=
  f.min_size.isSome || f.include_extensions.isSome || f.exclude_extensions.isSome

/-- build_filter from scanner/mod.rs lines 161-177. -/
def build_filter (options : ScanOptions) : FileFilter :=
  let f := FileFilter.new
  let f := match options.min_file_size with
    | some min_size => f.with_min_size min_size
    | none => f
  let f := match options.include_extensions with
    | some includes => f.with_include_extensions includes
    | none => f
  match options.exclude_extensions with
  | some excludes => f.with_exclude_extensions excludes
  | none => f

/-- ScanOutput from scanner/mod.rs: collected files and non-fatal errors. -/
structure ScanOutput where
  files : List FileEntry
  errors : List ScanError
deriving DecidableEq, Repr

/-- One event yielded by the walkdir iterator: either an entry (with its path,
directory flag, and the outcome of reading its metadata as size plus formatted
modification time) or a walk error carrying a path and message. -/
inductive WalkEvent where
  | found (path : String) (isDir : Bool) (meta : Except String (Nat × Option String))
  | failure (path : String) (message : String)

/-- process_entry from scanner/mod.rs lines 121-158: directories are skipped, a
metadata failure aborts the entry (the caller only logs it, recording nothing),
the filter is applied, and a passing file is appended to the output. -/
def process_entry (filter : FileFilter) (path : String) (isDir : Bool)
    (meta : Except String (Nat × Option String)) (output : ScanOutput) :
    ScanOutput :=
  if isDir then output
  else
    match meta with
    | .error _ => output
    | .ok (size, modified) =>
      if !(filter.matches path size) then output
      else { output with files := output.files ++ [FileEntry.mk path size modified] }

/-- scan_directory from scanner/mod.rs lines 92-118: fold over the walk events
of one root; entries go through process_entry, walk errors are recorded as
ScanErrors. -/
def scan_directory (events : List WalkEvent) (filter : FileFilter)
    (output : ScanOutput) : ScanOutput :=
  events.foldl
    (fun out ev =>
      match ev with
      | .found p d meta => process_entry filter p d meta out
      | .failure p msg => { out with errors := out.errors ++ [ScanError.mk p msg] })
    output

/-- Root validation loop of scan_directories, scanner/mod.rs lines 67-71:
return PathNotFound for the first root that does not exist. -/
def validate_roots (fs : String → Bool) : List String → Except ScannerError Unit
  | [] => .ok ()
  | p :: rest => if fs p then validate_roots fs rest else .error (.PathNotFound p)

/-- scan_directories from scanner/mod.rs lines 59-89. The file system is an
oracle pair: fs says whether a path exists, walk yields the walkdir events of a
root (given the follow_symlinks flag). All roots are validated before any
directory is walked; then the roots are scanned in order into one output. -/
def scan_directories (fs : String → Bool)
    (walk : Bool → String → List WalkEvent) (options : ScanOptions) :
    Except ScannerError ScanOutput :=
  match validate_roots fs options.root_paths with
  | .error e => .error e
  | .ok _ =>
    let filter := build_filter options
    .ok (options.root_paths.foldl
      (fun out root => scan_directory (walk options.follow_symlinks root) filter out)
      (ScanOutput.mk [] []))

/-- HashResult from hasher/mod.rs: the hashed file and either its digest or an
error message. -/
structure HashResult where
  file : FileEntry
  hash : Except String String
deriving Repr

/-- hash_files_parallel from hasher/mod.rs lines 103-139, with hash_file behind
the oracle hashOf (it performs file I/O). The rayon map is embedded
sequentially: one outcome per input file, errors stored as their display
strings; the progress callback receives the running count and cannot influence
which files are hashed (it returns unit in the source). -/
def hash_files_parallel (hashOf : FileEntry → Except ScannerError String)
    (files : List FileEntry) : List HashResult :=
  files.map (fun file =>
    match hashOf file with
    | .ok h => HashResult.mk file (.ok h)
    | .error e => HashResult.mk file (.error e.message))

/-- Hashing phase of start_scan, commands.rs lines 109-144: the candidate files
are passed to hash_files_parallel in one call. The cancellation flag (value
during the phase) is a parameter only to make its irrelevance to the launched
work explicit: the source consults it inside the progress callback merely to
suppress progress events, and the orchestrator re-reads it only after
hash_files_parallel has returned. -/
def hashing_phase (_cancel : Bool) (hashOf : FileEntry → Except ScannerError String)
    (files : List FileEntry) : List HashResult :=
  hash_files_parallel hashOf files

/-- Per-item progress callback of the hashing phase, commands.rs lines 116-139,
with the wall-clock rate limiter abstracted as an elapsed window: reads the
cancellation flag and suppresses the progress event when it is set; some count
means an event carrying that count is emitted. -/
def hashing_callback_emits (cancel : Bool) (count : Nat) : Option Nat :=
  if cancel then none else some count

/-- delete_files from commands.rs lines 207-245: each path is attempted
independently through the removal oracle (trash::delete when use_trash,
std::fs::remove_file otherwise — both behind removeOp); successes are pushed to
deleted, failures to failed with the error string, and the command itself
always returns Ok. -/
def delete_files (removeOp : String → Bool → Except String Unit)
    (file_paths : List String) (use_trash : Bool) :
    Except String DeleteResult :=
  let res := file_paths.foldl
    (fun (acc : List String × List DeleteError) path_str =>
      match removeOp path_str use_trash with
      | .ok _ => (acc.1 ++ [path_str], acc.2)
      | .error e => (acc.1, acc.2 ++ [DeleteError.mk path_str e]))
    ([], [])
  .ok (DeleteResult.mk res.1 res.2)

end DupDetector

namespace DupDetector

/-- Lookup after one entry/push step: the pushed value lands at the end of its
key's list and other keys are untouched. -/
theorem lookupV_insertGrouped {κ α : Type} [DecidableEq κ]
    (m : List (κ × List α)) (k k' : κ) (v : α) :
    lookupV k (insertGrouped m k' v)
      = if k' = k then lookupV k m ++ [v] else lookupV k m := by
  induction m with
  | nil =>
    by_cases h : k' = k <;> simp [insertGrouped, lookupV, h]
  | cons hd tl ih =>
    obtain ⟨k₀, xs⟩ := hd
    by_cases h0 : k₀ = k'
    · subst h0
      by_cases h1 : k₀ = k <;> simp [insertGrouped, lookupV, h1]
    · by_cases h1 : k₀ = k
      · subst h1
        have h2 : ¬ k' = k₀ := fun hh => h0 hh.symm
        simp [insertGrouped, lookupV, h0, h2]
      · simp [insertGrouped, lookupV, h0, h1, ih]

/-- Lookup in the fold of entry/push steps over a pair list. -/
theorem lookupV_foldl_insert {κ α : Type} [DecidableEq κ] (l : List (κ × α)) :
    ∀ (m : List (κ × List α)) (k : κ),
      lookupV k (l.foldl (fun m p => insertGrouped m p.1 p.2) m)
        = lookupV k m ++ (l.filter (fun p => p.1 = k)).map Prod.snd := by
  induction l with
  | nil => intro m k; simp
  | cons p tl ih =>
    intro m k
    simp only [List.foldl_cons]
    rw [ih, lookupV_insertGrouped]
    by_cases h : p.1 = k
    · simp [h, List.filter_cons]
    · simp [h, List.filter_cons]

/-- Lookup in the embedded HashMap contents: the values stored under a key are
exactly the values of the input pairs carrying that key, in input order. -/
theorem lookupV_groupKV {κ α : Type} [DecidableEq κ] (l : List (κ × α)) (k : κ) :
    lookupV k (groupKV l) = (l.filter (fun p => p.1 = k)).map Prod.snd := by
  have := lookupV_foldl_insert l [] k
  simpa [groupKV, lookupV] using this

/-- A nonempty lookup result is an actual entry of the association list. -/
theorem mem_of_lookupV_ne_nil {κ α : Type} [DecidableEq κ]
    (m : List (κ × List α)) (k : κ) (h : lookupV k m ≠ []) :
    (k, lookupV k m) ∈ m := by
  induction m with
  | nil => simp [lookupV] at h
  | cons hd tl ih =>
    obtain ⟨k₀, xs⟩ := hd
    by_cases h0 : k₀ = k
    · subst h0
      simp [lookupV]
    · simp only [lookupV, if_neg h0] at h ⊢
      exact List.mem_cons_of_mem _ (ih h)

/-- Key membership after one entry/push step. -/
theorem mem_keysOf_insertGrouped {κ α : Type} [DecidableEq κ]
    (m : List (κ × List α)) (k k' : κ) (v : α) :
    k' ∈ keysOf (insertGrouped m k v) ↔ k' ∈ keysOf m ∨ k' = k := by
  induction m with
  | nil => simp [insertGrouped, keysOf]
  | cons hd tl ih =>
    obtain ⟨k₀, xs⟩ := hd
    by_cases h0 : k₀ = k
    · subst h0
      simp [insertGrouped, keysOf]
      tauto
    · simp only [insertGrouped, if_neg h0, keysOf, List.map_cons, List.mem_cons]
      rw [show (insertGrouped tl k v).map Prod.fst = keysOf (insertGrouped tl k v) from rfl,
        ih]
      simp [keysOf]
      tauto

/-- Entry/push preserves distinctness of the stored keys. -/
theorem nodup_keysOf_insertGrouped {κ α : Type} [DecidableEq κ]
    (m : List (κ × List α)) (k : κ) (v : α) (h : (keysOf m).Nodup) :
    (keysOf (insertGrouped m k v)).Nodup := by
  induction m with
  | nil => simp [insertGrouped, keysOf]
  | cons hd tl ih =>
    obtain ⟨k₀, xs⟩ := hd
    simp only [keysOf, List.map_cons, List.nodup_cons] at h
    by_cases h0 : k₀ = k
    · subst h0
      simpa [insertGrouped, keysOf, List.nodup_cons] using h
    · simp only [insertGrouped, if_neg h0, keysOf, List.map_cons, List.nodup_cons]
      refine ⟨?_, ih h.2⟩
      intro hmem
      rcases (mem_keysOf_insertGrouped tl k k₀ v).1 hmem with h1 | h1
      · exact h.1 h1
      · exact h0 h1

/-- The embedded HashMap contents have pairwise distinct keys. -/
theorem nodup_keysOf_groupKV {κ α : Type} [DecidableEq κ] (l : List (κ × α)) :
    (keysOf (groupKV l)).Nodup := by
  have aux : ∀ (l₁ : List (κ × α)) (m : List (κ × List α)), (keysOf m).Nodup →
      (keysOf (l₁.foldl (fun m p => insertGrouped m p.1 p.2) m)).Nodup := by
    intro l₁
    induction l₁ with
    | nil => intro m hm; simpa using hm
    | cons p tl ih =>
      intro m hm
      simp only [List.foldl_cons]
      exact ih _ (nodup_keysOf_insertGrouped m p.1 p.2 hm)
  simp only [groupKV]
  exact aux l [] (by simp [keysOf])

/-- The stored keys are exactly the keys occurring in the input pairs. -/
theorem mem_keysOf_groupKV {κ α : Type} [DecidableEq κ] (l : List (κ × α)) (k : κ) :
    k ∈ keysOf (groupKV l) ↔ k ∈ l.map Prod.fst := by
  have aux : ∀ (l₁ : List (κ × α)) (m : List (κ × List α)),
      (k ∈ keysOf (l₁.foldl (fun m p => insertGrouped m p.1 p.2) m)
        ↔ k ∈ keysOf m ∨ k ∈ l₁.map Prod.fst) := by
    intro l₁
    induction l₁ with
    | nil => intro m; simp
    | cons p tl ih =>
      intro m
      simp only [List.foldl_cons, List.map_cons, List.mem_cons]
      rw [ih, mem_keysOf_insertGrouped]
      tauto
  have := aux l []
  simp only [groupKV]
  rw [this]
  simp [keysOf]

/-- With distinct keys an entry of the association list is determined by its
key, and equals the lookup at that key. -/
theorem eq_lookupV_of_mem {κ α : Type} [DecidableEq κ]
    (m : List (κ × List α)) (hnd : (keysOf m).Nodup) {k : κ} {xs : List α}
    (h : (k, xs) ∈ m) : xs = lookupV k m := by
  induction m with
  | nil => simp at h
  | cons hd tl ih =>
    obtain ⟨k₀, ys⟩ := hd
    simp only [keysOf, List.map_cons, List.nodup_cons] at hnd
    rcases List.mem_cons.1 h with h1 | h1
    · have hk : k = k₀ := congrArg Prod.fst h1
      have hx : xs = ys := congrArg Prod.snd h1
      subst hk
      simp [lookupV, hx]
    · have hk : k ∈ keysOf tl := by
        simpa [keysOf] using List.mem_map_of_mem Prod.fst h1
      have h0 : ¬ k₀ = k := by
        intro hh
        subst hh
        exact hnd.1 (by simpa [keysOf] using hk)
      simp only [lookupV, if_neg h0]
      exact ih hnd.2 h1

/-- Each entry of the embedded HashMap contents stores exactly the input values
carrying its key, in input order. -/
theorem groupKV_entry {κ α : Type} [DecidableEq κ] (l : List (κ × α))
    {k : κ} {xs : List α} (h : (k, xs) ∈ groupKV l) :
    xs = (l.filter (fun p => p.1 = k)).map Prod.snd :=
  (eq_lookupV_of_mem _ (nodup_keysOf_groupKV l) h).trans (lookupV_groupKV l k)

/-- When some input pair carries the key, the corresponding entry is present. -/
theorem groupKV_mem_of_filter_ne_nil {κ α : Type} [DecidableEq κ]
    (l : List (κ × α)) (k : κ) (h : l.filter (fun p => p.1 = k) ≠ []) :
    (k, (l.filter (fun p => p.1 = k)).map Prod.snd) ∈ groupKV l := by
  have hl : lookupV k (groupKV l) = (l.filter (fun p => p.1 = k)).map Prod.snd :=
    lookupV_groupKV l k
  have hne : lookupV k (groupKV l) ≠ [] := by
    rw [hl]
    simpa using h
  have hm := mem_of_lookupV_ne_nil _ _ hne
  rwa [hl] at hm

/-- Swapping (file, hash) pairs before grouping and projecting back: the values
stored under a digest are the files of the input pairs carrying that digest. -/
theorem map_swap_filter_hash (l : List (FileEntry × String)) (d : String) :
    ((l.map (fun p => (p.2, p.1))).filter (fun q => q.1 = d)).map Prod.snd
      = (l.filter (fun p => p.2 = d)).map Prod.fst := by
  induction l with
  | nil => rfl
  | cons p tl ih =>
    by_cases h : p.2 = d <;> simp [List.filter_cons, h, ih]

/-- Pairing files with their sizes before grouping and projecting back. -/
theorem map_size_filter (files : List FileEntry) (k : Nat) :
    ((files.map (fun f => (f.size, f))).filter (fun q => q.1 = k)).map Prod.snd
      = files.filter (fun f => f.size = k) := by
  induction files with
  | nil => rfl
  | cons f tl ih =>
    by_cases h : f.size = k <;> simp [List.filter_cons, h, ih]

/-- Membership in the output of find_duplicates: the final sort permutes the
grouped-and-filtered list, so a group is returned iff it arises from a retained
hash-map entry. -/
theorem mem_find_duplicates (l : List (FileEntry × String)) (g : DuplicateGroup) :
    g ∈ find_duplicates l ↔
      ∃ p ∈ (groupKV (l.map (fun p => (p.2, p.1)))).filter (fun p => 1 < p.2.length),
        DuplicateGroup.mk p.1 ((p.2.head?.map FileEntry.size).getD 0) p.2 = g := by
  simp only [find_duplicates]
  rw [List.mem_insertionSort]
  simp [List.mem_map]

/-- C1: find_duplicates returns a group for a digest iff at least two of the
input (file, digest) pairs carry that digest — singleton digests never appear —
and the files of each returned group are exactly the input files carrying that
group's digest, in input order. -/
theorem find_duplicates_spec (l : List (FileEntry × String)) (d : String) :
    ((∃ g ∈ find_duplicates l, g.hash = d)
        ↔ 2 ≤ (l.filter (fun p => p.2 = d)).length)
      ∧ ∀ g ∈ find_duplicates l,
          g.files = (l.filter (fun p => p.2 = g.hash)).map Prod.fst := by
  have hfiles : ∀ g ∈ find_duplicates l,
      g.files = (l.filter (fun p => p.2 = g.hash)).map Prod.fst := by
    intro g hg
    rcases (mem_find_duplicates l g).1 hg with ⟨p, hp, hpg⟩
    rcases List.mem_filter.1 hp with ⟨hpG, _⟩
    have hentry : p.2 = ((l.map (fun q => (q.2, q.1))).filter
        (fun q => q.1 = p.1)).map Prod.snd := groupKV_entry _ hpG
    have hgf : g.files = p.2 := by rw [← hpg]
    have hgh : g.hash = p.1 := by rw [← hpg]
    rw [hgf, hgh, hentry, map_swap_filter_hash]
  refine ⟨⟨?_, ?_⟩, hfiles⟩
  · rintro ⟨g, hg, hghash⟩
    rcases (mem_find_duplicates l g).1 hg with ⟨p, hp, hpg⟩
    rcases List.mem_filter.1 hp with ⟨_, hplen⟩
    have hlen : 1 < p.2.length := by simpa using hplen
    have hgf : g.files = p.2 := by rw [← hpg]
    have hfe := hfiles g hg
    rw [hghash] at hfe
    have hlen2 : 1 < g.files.length := by rw [hgf]; exact hlen
    rw [hfe] at hlen2
    simpa using hlen2
  · intro h2
    have hlen_eq : ((l.map (fun q => (q.2, q.1))).filter (fun q => q.1 = d)).length
        = (l.filter (fun p => p.2 = d)).length := by
      have hc := congrArg List.length (map_swap_filter_hash l d)
      simpa using hc
    have hfilne : (l.map (fun q => (q.2, q.1))).filter (fun q => q.1 = d) ≠ [] := by
      intro hnil
      rw [hnil] at hlen_eq
      simp at hlen_eq
      omega
    have hmem := groupKV_mem_of_filter_ne_nil (l.map (fun q => (q.2, q.1))) d hfilne
    have hyslen : 1 < (((l.map (fun q => (q.2, q.1))).filter
        (fun q => q.1 = d)).map Prod.snd).length := by
      rw [List.length_map, hlen_eq]
      omega
    have hpfil : ((d, ((l.map (fun q => (q.2, q.1))).filter
        (fun q => q.1 = d)).map Prod.snd) : String × List FileEntry)
        ∈ (groupKV (l.map (fun q => (q.2, q.1)))).filter (fun p => 1 < p.2.length) :=
      List.mem_filter.2 ⟨hmem, by simpa using hyslen⟩
    exact ⟨_, (mem_find_duplicates l _).2 ⟨_, hpfil, rfl⟩, rfl⟩

/-- Witness for find_duplicates_spec: two files share digest h, so a group with
hash h is returned. -/
theorem find_duplicates_spec_witness :
    2 ≤ (([(FileEntry.mk "/a" 5 none, "h"), (FileEntry.mk "/b" 5 none, "h"),
          (FileEntry.mk "/c" 7 none, "k")] : List (FileEntry × String)).filter
            (fun p => p.2 = "h")).length
      ∧ ∃ g ∈ find_duplicates
          [(FileEntry.mk "/a" 5 none, "h"), (FileEntry.mk "/b" 5 none, "h"),
            (FileEntry.mk "/c" 7 none, "k")], g.hash = "h" :=
  ⟨by decide,
    (find_duplicates_spec
      [(FileEntry.mk "/a" 5 none, "h"), (FileEntry.mk "/b" 5 none, "h"),
        (FileEntry.mk "/c" 7 none, "k")] "h").1.2 (by decide)⟩

/-- C3 counterexample: with two input files of different sizes carrying the same
digest, find_duplicates returns a group containing a member whose size differs
from the group's size field — the grouper does not re-validate sizes. -/
theorem find_duplicates_size_counterexample :
    ∃ g ∈ find_duplicates
        [(FileEntry.mk "/a" 1 none, "h"), (FileEntry.mk "/b" 2 none, "h")],
      ∃ f ∈ g.files, ¬ f.size = g.size := by
  decide

/-- C3 amended: every returned group has at least 2 files, every member was
paired with the group's digest in the input, and the group's size field is the
size of its first member; under the upstream guarantee that input files
carrying the same digest share a size, every member's size equals the group's
size field. -/
theorem find_duplicates_group_invariant (l : List (FileEntry × String)) :
    ∀ g ∈ find_duplicates l,
      2 ≤ g.files.length
      ∧ (∀ f ∈ g.files, (f, g.hash) ∈ l)
      ∧ g.files.head?.map FileEntry.size = some g.size
      ∧ ((∀ p ∈ l, ∀ q ∈ l, p.2 = q.2 → p.1.size = q.1.size) →
          ∀ f ∈ g.files, f.size = g.size) := by
  intro g hg
  rcases (mem_find_duplicates l g).1 hg with ⟨p, hp, hpg⟩
  rcases List.mem_filter.1 hp with ⟨hpG, hplen⟩
  have hlen : 1 < p.2.length := by simpa using hplen
  have hgf : g.files = p.2 := by rw [← hpg]
  have hgh : g.hash = p.1 := by rw [← hpg]
  have hgs : g.size = (p.2.head?.map FileEntry.size).getD 0 := by rw [← hpg]
  have hentry : p.2 = (l.filter (fun q => q.2 = p.1)).map Prod.fst := by
    have h1 := groupKV_entry _ hpG
    rw [h1, map_swap_filter_hash]
  obtain ⟨y, ys, hcons⟩ : ∃ y ys, p.2 = y :: ys := by
    cases hp2 : p.2 with
    | nil => rw [hp2] at hlen; simp at hlen
    | cons y ys => exact ⟨y, ys, rfl⟩
  have hmemf : ∀ f ∈ g.files, (f, g.hash) ∈ l := by
    intro f hf
    rw [hgf, hentry] at hf
    rcases List.mem_map.1 hf with ⟨q, hq, hqf⟩
    rcases List.mem_filter.1 hq with ⟨hql, hqd⟩
    have hq2 : q.2 = p.1 := by simpa using hqd
    have hqe : q = (f, g.hash) := by
      rw [hgh]
      obtain ⟨q1, q2⟩ := q
      simp only at hqf hq2
      rw [hqf, hq2]
    rwa [hqe] at hql
  refine ⟨?_, hmemf, ?_, ?_⟩
  · rw [hgf]; omega
  · rw [hgf, hgs, hcons]; simp
  · intro hsz f hf
    have hfmem := hmemf f hf
    have hymem : (y, g.hash) ∈ l := by
      apply hmemf
      rw [hgf, hcons]
      exact List.mem_cons_self ..
    have hfy := hsz (f, g.hash) hfmem (y, g.hash) hymem rfl
    have hys : g.size = y.size := by rw [hgs, hcons]; simp
    simpa [hys] using hfy

/-- Witness for find_duplicates_group_invariant: with equal sizes upstream the
member size agrees with the group size field. -/
theorem find_duplicates_group_invariant_witness :
    (FileEntry.mk "/a" 5 none).size
      = (DuplicateGroup.mk "h" 5
          [FileEntry.mk "/a" 5 none, FileEntry.mk "/b" 5 none]).size :=
  (find_duplicates_group_invariant
      [(FileEntry.mk "/a" 5 none, "h"), (FileEntry.mk "/b" 5 none, "h")]
      (DuplicateGroup.mk "h" 5
        [FileEntry.mk "/a" 5 none, FileEntry.mk "/b" 5 none])
      (by decide)).2.2.2 (by decide) (FileEntry.mk "/a" 5 none) (by decide)

/-- Unfolding equation for keysOf. -/
theorem keysOf_def {κ α : Type} (m : List (κ × List α)) :
    keysOf m = m.map Prod.fst := rfl

/-- Lengths of the retained entries, re-indexed over the key list, when each
entry length is determined by its key. -/
theorem filtered_lengths {κ β : Type} (m : List (κ × List β)) (c : κ → Nat)
    (h : ∀ p ∈ m, p.2.length = c p.1) :
    (m.filter (fun p => 1 < p.2.length)).map (fun p => p.2.length)
      = ((m.map Prod.fst).filter (fun k => 1 < c k)).map c := by
  induction m with
  | nil => simp
  | cons p tl ih =>
    have hp := h p (List.mem_cons_self ..)
    have htl : ∀ q ∈ tl, q.2.length = c q.1 :=
      fun q hq => h q (List.mem_cons_of_mem _ hq)
    by_cases h1 : 1 < p.2.length
    · have h2 : 1 < c p.1 := hp ▸ h1
      simp [List.filter_cons, h1, h2, hp, ih htl]
    · have h2 : ¬ 1 < c p.1 := by rw [← hp]; exact h1
      simp [List.filter_cons, h1, h2, ih htl]

/-- Summing per-key multiplicities over a distinct key list that covers every
element: the keys passing a predicate account for exactly the elements whose
key passes it. -/
theorem sum_countP_filter_by_key {κ α : Type} [DecidableEq κ]
    (key : α → κ) (P : κ → Bool) :
    ∀ (ks : List κ) (fls : List α), ks.Nodup → (∀ a ∈ fls, key a ∈ ks) →
      ((ks.filter P).map (fun k => fls.countP (fun a => key a = k))).sum
        = fls.countP (fun a => P (key a)) := by
  intro ks
  induction ks with
  | nil =>
    intro fls _ hcov
    have hnil : fls = [] :=
      List.eq_nil_iff_forall_not_mem.2
        (fun a ha => (List.not_mem_nil (key a)) (hcov a ha))
    subst hnil
    simp
  | cons k₀ ks' ih =>
    intro fls hnd hcov
    have hnd' : ks'.Nodup := (List.nodup_cons.1 hnd).2
    have hk₀ : k₀ ∉ ks' := (List.nodup_cons.1 hnd).1
    have hsplit := List.countP_eq_countP_filter_add fls
      (fun a => P (key a)) (fun a => key a = k₀)
    have hcov' : ∀ a ∈ fls.filter (fun a => !(decide (key a = k₀))), key a ∈ ks' := by
      intro a ha
      rcases List.mem_filter.1 ha with ⟨hal, hane⟩
      have hne : ¬ key a = k₀ := by simpa using hane
      rcases List.mem_cons.1 (hcov a hal) with h | h
      · exact absurd h hne
      · exact h
    have main := ih (fls.filter (fun a => !(decide (key a = k₀)))) hnd' hcov'
    have hterm : ∀ k ∈ ks'.filter P,
        fls.countP (fun a => key a = k)
          = (fls.filter (fun a => !(decide (key a = k₀)))).countP
              (fun a => key a = k) := by
      intro k hkf
      have hk : k ∈ ks' := (List.mem_filter.1 hkf).1
      have hne : ¬ k = k₀ := fun hh => hk₀ (hh ▸ hk)
      rw [List.countP_filter]
      refine (List.countP_congr ?_).symm
      intro a _
      simp only [Bool.and_eq_true, decide_eq_true_eq, Bool.not_eq_true',
        decide_eq_false_iff_not]
      constructor
      · intro hh
        exact hh.1
      · intro hh
        exact ⟨hh, fun hk0 => hne (hh.symm.trans hk0)⟩
    have hhead : (fls.filter (fun a => key a = k₀)).countP (fun a => P (key a))
        = if P k₀ then fls.countP (fun a => key a = k₀) else 0 := by
      rw [List.countP_filter]
      by_cases hP : P k₀ = true
      · rw [if_pos hP]
        refine List.countP_congr ?_
        intro a _
        simp only [Bool.and_eq_true, decide_eq_true_eq]
        constructor
        · intro hh
          exact hh.2
        · intro hh
          exact ⟨by rw [hh]; exact hP, hh⟩
      · rw [if_neg hP]
        rw [List.countP_eq_zero]
        intro a _
        simp only [Bool.and_eq_true, decide_eq_true_eq, not_and]
        intro hPa hk0
        exact hP (by rw [← hk0]; exact hPa)
    by_cases hP : P k₀ = true
    · rw [List.filter_cons_of_pos hP, List.map_cons, List.sum_cons,
        List.map_congr_left hterm, main, hsplit, hhead, if_pos hP]
    · rw [List.filter_cons_of_neg (by simpa using hP),
        List.map_congr_left hterm, main, hsplit, hhead, if_neg hP]
      omega

/-- C7: group_by_size returns no entry with fewer than 2 files, and the lengths
of all returned lists sum to the number of input files whose size is shared
with at least one other input file. -/
theorem group_by_size_spec (files : List FileEntry) :
    (∀ p ∈ group_by_size files, 2 ≤ p.2.length)
    ∧ ((group_by_size files).map (fun p => p.2.length)).sum
        = (files.filter (fun f =>
            2 ≤ (files.filter (fun g => g.size = f.size)).length)).length := by
  constructor
  · intro p hp
    have h2 := (List.mem_filter.1 hp).2
    simp only [decide_eq_true_eq] at h2
    omega
  · have hlen : ∀ p ∈ groupKV (files.map (fun f => (f.size, f))),
        p.2.length = files.countP (fun f => f.size = p.1) := by
      intro p hp
      have h1 := groupKV_entry _ hp
      rw [h1, map_size_filter, ← List.countP_eq_length_filter]
    have hA := filtered_lengths (groupKV (files.map (fun f => (f.size, f))))
      (fun k => files.countP (fun f => f.size = k)) hlen
    have hnd := nodup_keysOf_groupKV (files.map (fun f => (f.size, f)))
    have hcov : ∀ f ∈ files,
        f.size ∈ keysOf (groupKV (files.map (fun f => (f.size, f)))) := by
      intro f hf
      rw [mem_keysOf_groupKV]
      exact List.mem_map.2 ⟨(f.size, f), List.mem_map.2 ⟨f, hf, rfl⟩, rfl⟩
    have hB := sum_countP_filter_by_key FileEntry.size
      (fun k => 1 < files.countP (fun f => f.size = k))
      (keysOf (groupKV (files.map (fun f => (f.size, f))))) files hnd hcov
    rw [keysOf_def] at hB
    have hfinal : files.countP
        (fun a => 1 < files.countP (fun f => f.size = a.size))
        = (files.filter (fun f =>
            2 ≤ (files.filter (fun g => g.size = f.size)).length)).length := by
      rw [← List.countP_eq_length_filter]
      refine List.countP_congr ?_
      intro a _
      simp only [decide_eq_true_eq]
      rw [List.countP_eq_length_filter]
      omega
    rw [show group_by_size files
        = (groupKV (files.map (fun f => (f.size, f)))).filter
            (fun p => 1 < p.2.length) from rfl,
      hA, hB, hfinal]

/-- Witness for group_by_size_spec: a retained entry of a concrete run has at
least two files. -/
theorem group_by_size_spec_witness :
    2 ≤ (((1 : Nat), [FileEntry.mk "/a" 1 none, FileEntry.mk "/b" 1 none]) :
        Nat × List FileEntry).2.length :=
  (group_by_size_spec [FileEntry.mk "/a" 1 none, FileEntry.mk "/b" 1 none]).1
    ((1 : Nat), [FileEntry.mk "/a" 1 none, FileEntry.mk "/b" 1 none]) (by decide)

/-- C9: for every DuplicateGroup, wasted_space equals (number of files - 1) * size
in truncated natural subtraction, and for a group with 0 or 1 members it equals 0. -/
theorem wasted_space_formula (g : DuplicateGroup) :
    g.wasted_space = (g.files.length - 1) * g.size
      ∧ (g.files.length ≤ 1 → g.wasted_space = 0) := by
  constructor
  · unfold DuplicateGroup.wasted_space
    split
    · rename_i h
      interval_cases h : g.files.length <;> simp_all
    · rfl
  · intro h
    simp [DuplicateGroup.wasted_space, h]

/-- Witness for wasted_space_formula at a concrete one-member group. -/
theorem wasted_space_formula_witness :
    (DuplicateGroup.mk "h" 5 [FileEntry.mk "/a" 5 none]).wasted_space = 0 :=
  (wasted_space_formula (DuplicateGroup.mk "h" 5 [FileEntry.mk "/a" 5 none])).2
    (by decide)

/-- C2 counterexample: a generic I/O failure is NOT classified recoverable by
ScannerError::is_recoverable, contradicting the claim that permission denied,
vanished file AND generic I/O failure are each recoverable. -/
theorem io_error_not_recoverable :
    (ScannerError.Io "read failed").is_recoverable = false := rfl

/-- C2 amended: is_recoverable returns true exactly for PermissionDenied,
FileDisappeared and InvalidPath; in particular permission denied and vanished
file are recoverable while a generic I/O failure is not. -/
theorem is_recoverable_characterization (e : ScannerError) :
    e.is_recoverable = true ↔
      ((∃ p, e = .PermissionDenied p) ∨ (∃ p, e = .FileDisappeared p)
        ∨ (∃ p, e = .InvalidPath p)) := by
  cases e <;> simp [ScannerError.is_recoverable]

/-- C5: the session state machine. A second try_start while Scanning returns
none and leaves the whole state (in particular the session id) unchanged; after
finish, try_start succeeds with the fresh id; request_cancel while Idle returns
false and changes nothing (the cancellation flag stays clear); a successful
try_start clears any stale cancellation flag. -/
theorem session_state_machine (s : AppState) (newId : String) :
    (s.is_scanning = true →
      (s.try_start_scan newId).1 = none ∧ (s.try_start_scan newId).2 = s)
    ∧ ((s.finish_scan.try_start_scan newId).1 = some newId)
    ∧ (s.is_scanning = false →
      (s.request_cancel.1 = false ∧ s.request_cancel.2 = s))
    ∧ (s.is_scanning = false →
      ((s.try_start_scan newId).1 = some newId
        ∧ (s.try_start_scan newId).2.cancel_requested = false)) := by
  refine ⟨fun h => ?_, ?_, fun h => ?_, fun h => ?_⟩
  · simp [AppState.try_start_scan, h]
  · simp [AppState.finish_scan, AppState.try_start_scan]
  · simp [AppState.request_cancel, h]
  · simp [AppState.try_start_scan, h]

/-- C4 counterexample: with cancellation requested during the Hashing phase
(flag set for the whole phase — the strongest case), the phase still hashes
every remaining candidate file: an outcome is produced for all three
candidates, so the pipeline does not stop launching per-file work before the
phase completes. -/
theorem hashing_ignores_cancel_counterexample :
    (hashing_phase true (fun f => .ok f.path)
        [FileEntry.mk "/a" 1 none, FileEntry.mk "/b" 1 none,
          FileEntry.mk "/c" 1 none]).map HashResult.file
      = [FileEntry.mk "/a" 1 none, FileEntry.mk "/b" 1 none,
          FileEntry.mk "/c" 1 none] := rfl

/-- C4 amended: the cancellation flag does not gate work inside the Hashing
phase — the phase yields one outcome per candidate file, in order, identical
to an uncancelled run — and the per-item progress callback reads the flag only
to suppress progress events; cancellation is observed by the orchestrator at
the phase boundary after hash_files_parallel returns. -/
theorem hashing_phase_cancel_irrelevant (cancel : Bool)
    (hashOf : FileEntry → Except ScannerError String) (files : List FileEntry) :
    (hashing_phase cancel hashOf files).map HashResult.file = files
      ∧ hashing_phase cancel hashOf files = hashing_phase false hashOf files
      ∧ ∀ count, hashing_callback_emits true count = none := by
  refine ⟨?_, rfl, fun count => rfl⟩
  induction files with
  | nil => rfl
  | cons f tl ih =>
    simp only [hashing_phase, hash_files_parallel, List.map_cons] at ih ⊢
    cases hashOf f <;> simpa using ih

/-- Root validation returns PathNotFound for the first missing root. -/
theorem validate_roots_first_missing (fs : String → Bool) :
    ∀ (roots : List String) (q : String),
      roots.find? (fun p => !(fs p)) = some q →
      validate_roots fs roots = .error (.PathNotFound q) := by
  intro roots
  induction roots with
  | nil => intro q hq; simp at hq
  | cons r tl ih =>
    intro q hq
    by_cases hr : fs r = true
    · rw [List.find?_cons_of_neg _ (by simp [hr])] at hq
      simp [validate_roots, hr, ih q hq]
    · rw [List.find?_cons_of_pos _ (by simp [hr])] at hq
      have : r = q := by simpa using hq
      subst this
      simp [validate_roots, hr]

/-- C6: when a configured root path does not exist (q being the first missing
one), scan_directories fails with PathNotFound naming it, and the result does
not depend on the walk oracle at all — no directory is opened — and being an
error it carries no ScanOutput: no files and no per-entry errors are produced
for any root, existing roots included. -/
theorem scan_directories_path_not_found (fs : String → Bool)
    (walk₁ walk₂ : Bool → String → List WalkEvent) (options : ScanOptions)
    (q : String)
    (h : options.root_paths.find? (fun p => !(fs p)) = some q) :
    scan_directories fs walk₁ options = .error (.PathNotFound q)
      ∧ scan_directories fs walk₁ options = scan_directories fs walk₂ options := by
  have hval := validate_roots_first_missing fs options.root_paths q h
  constructor
  · simp [scan_directories, hval]
  · simp [scan_directories, hval]

/-- Witness for scan_directories_path_not_found: a root list with an existing
and a missing root fails naming the missing one, for a concrete walk oracle. -/
theorem scan_directories_path_not_found_witness :
    scan_directories (fun p => p = "/ok") (fun _ _ => [])
        (ScanOptions.mk ["/ok", "/missing"] none none none false)
      = .error (.PathNotFound "/missing") :=
  (scan_directories_path_not_found (fun p => p = "/ok") (fun _ _ => [])
    (fun _ _ => [WalkEvent.failure "/x" "m"])
    (ScanOptions.mk ["/ok", "/missing"] none none none false)
    "/missing" (by decide)).1

/-- C8: filter semantics. Verdicts depend on the extension only through its
lower-cased form, so paths differing only in extension letter case agree;
when include and exclude sets are both configured and both contain the file's
(normalized) extension the file is rejected; and a filter configured with
empty include and exclude lists behaves identically to an unrestricted filter
on every input and reports no restrictions. -/
theorem filter_semantics :
    (∀ (f : FileFilter) (p₁ p₂ : String) (size : Nat),
        (extension p₁).map toLowerStr = (extension p₂).map toLowerStr →
        f.matches p₁ size = f.matches p₂ size)
    ∧ (∀ (l₁ l₂ : List String) (p : String) (size : Nat) (e : String),
        extension p = some e →
        (l₁.map normalize_ext).contains (toLowerStr e) = true →
        (l₂.map normalize_ext).contains (toLowerStr e) = true →
        ((FileFilter.new.with_include_extensions l₁).with_exclude_extensions
            l₂).matches p size = false)
    ∧ (∀ (p : String) (size : Nat),
        ((FileFilter.new.with_include_extensions []).with_exclude_extensions
            []).matches p size = FileFilter.new.matches p size)
    ∧ ((FileFilter.new.with_include_extensions []).with_exclude_extensions
        []).has_restrictions = false := by
  refine ⟨?_, ?_, fun p size => rfl, rfl⟩
  · intro f p₁ p₂ size h
    simp only [FileFilter.matches]
    rw [h]
  · intro l₁ l₂ p size e hext hinc hexc
    have hl₂ : ¬ l₂.isEmpty = true := by
      intro hemp
      rw [List.isEmpty_iff] at hemp
      subst hemp
      simp at hexc
    have hexc2 : ∃ a ∈ l₂, normalize_ext a = toLowerStr e := by
      simpa using hexc
    by_cases h1 : l₁.isEmpty = true
    · simp [FileFilter.new, FileFilter.with_include_extensions,
        FileFilter.with_exclude_extensions, h1, hl₂, FileFilter.matches,
        hext, hexc2]
    · simp [FileFilter.new, FileFilter.with_include_extensions,
        FileFilter.with_exclude_extensions, h1, hl₂, FileFilter.matches,
        hext, hexc2]

/-- Witness for filter_semantics: case-insensitivity on a concrete pair of
paths, and exclude overriding include on a concrete filter. -/
theorem filter_semantics_witness :
    ((FileFilter.mk none (some ["jpg"]) none).matches "/t/a.JPG" 10
        = (FileFilter.mk none (some ["jpg"]) none).matches "/t/a.jpg" 10)
      ∧ ((FileFilter.new.with_include_extensions ["png", "jpg"]).with_exclude_extensions
          ["png"]).matches "/t/image.PNG" 10 = false :=
  ⟨filter_semantics.1 (FileFilter.mk none (some ["jpg"]) none)
      "/t/a.JPG" "/t/a.jpg" 10 (by decide),
    filter_semantics.2.1 ["png", "jpg"] ["png"] "/t/image.PNG" 10 "PNG"
      (by decide) (by decide) (by decide)⟩

/-- C10: delete_files always returns Ok — one failing path never aborts the
call — and partitions the input: the deleted list holds exactly the paths whose
removal succeeded and the failed list exactly those whose removal failed, both
in input order, so every input path occurrence is recorded exactly once. -/
theorem delete_files_spec (removeOp : String → Bool → Except String Unit)
    (file_paths : List String) (use_trash : Bool) :
    ∃ r : DeleteResult,
      delete_files removeOp file_paths use_trash = .ok r
      ∧ r.deleted = file_paths.filter (fun p => (removeOp p use_trash).isOk)
      ∧ r.failed.map DeleteError.path
          = file_paths.filter (fun p => !(removeOp p use_trash).isOk)
      ∧ ∀ p, r.deleted.count p + (r.failed.map DeleteError.path).count p
          = file_paths.count p := by
  have hfold : ∀ (paths : List String) (acc : List String × List DeleteError),
      ((paths.foldl
          (fun (acc : List String × List DeleteError) path_str =>
            match removeOp path_str use_trash with
            | .ok _ => (acc.1 ++ [path_str], acc.2)
            | .error e => (acc.1, acc.2 ++ [DeleteError.mk path_str e]))
          acc).1
        = acc.1 ++ paths.filter (fun p => (removeOp p use_trash).isOk))
      ∧ ((paths.foldl
          (fun (acc : List String × List DeleteError) path_str =>
            match removeOp path_str use_trash with
            | .ok _ => (acc.1 ++ [path_str], acc.2)
            | .error e => (acc.1, acc.2 ++ [DeleteError.mk path_str e]))
          acc).2.map DeleteError.path
        = acc.2.map DeleteError.path
            ++ paths.filter (fun p => !(removeOp p use_trash).isOk)) := by
    intro paths
    induction paths with
    | nil => intro acc; simp
    | cons p tl ih =>
      intro acc
      simp only [List.foldl_cons]
      cases hop : removeOp p use_trash with
      | ok u =>
        have hrec := ih (acc.1 ++ [p], acc.2)
        have hOk : (removeOp p use_trash).isOk = true := by rw [hop]; rfl
        simp only [hop]
        refine ⟨?_, ?_⟩
        · rw [hrec.1, List.filter_cons]
          simp [hOk]
        · rw [hrec.2, List.filter_cons]
          simp [hOk]
      | error e =>
        have hrec := ih (acc.1, acc.2 ++ [DeleteError.mk p e])
        have hOk : (removeOp p use_trash).isOk = false := by rw [hop]; rfl
        simp only [hop]
        refine ⟨?_, ?_⟩
        · rw [hrec.1, List.filter_cons]
          simp [hOk]
        · rw [hrec.2, List.filter_cons]
          simp [hOk]
  have h := hfold file_paths ([], [])
  refine ⟨DeleteResult.mk
      (file_paths.filter (fun p => (removeOp p use_trash).isOk))
      ((file_paths.foldl
          (fun (acc : List String × List DeleteError) path_str =>
            match removeOp path_str use_trash with
            | .ok _ => (acc.1 ++ [path_str], acc.2)
            | .error e => (acc.1, acc.2 ++ [DeleteError.mk path_str e]))
          ([], [])).2), ?_, rfl, ?_, ?_⟩
  · simp only [delete_files]
    rw [show (file_paths.foldl
        (fun (acc : List String × List DeleteError) path_str =>
          match removeOp path_str use_trash with
          | .ok _ => (acc.1 ++ [path_str], acc.2)
          | .error e => (acc.1, acc.2 ++ [DeleteError.mk path_str e]))
        ([], [])).1 = file_paths.filter (fun p => (removeOp p use_trash).isOk)
      from by simpa using h.1]
  · simpa using h.2
  · intro p
    have h2 : (file_paths.foldl
        (fun (acc : List String × List DeleteError) path_str =>
          match removeOp path_str use_trash with
          | .ok _ => (acc.1 ++ [path_str], acc.2)
          | .error e => (acc.1, acc.2 ++ [DeleteError.mk path_str e]))
        ([], [])).2.map DeleteError.path
        = file_paths.filter (fun q => !(removeOp q use_trash).isOk) := by
      simpa using h.2
    rw [h2]
    simp only [List.count_eq_countP]
    rw [List.countP_eq_countP_filter_add file_paths _
      (fun q => (removeOp q use_trash).isOk)]

/-- Witness for session_state_machine: concrete Scanning and Idle states. -/
theorem session_state_machine_witness :
    ((AppState.mk true true (some "scan_1")).try_start_scan "scan_2").1 = none
      ∧ (AppState.new.request_cancel.1 = false
          ∧ AppState.new.request_cancel.2 = AppState.new)
      ∧ ((AppState.new.try_start_scan "scan_3").2.cancel_requested = false) :=
  ⟨((session_state_machine (AppState.mk true true (some "scan_1")) "scan_2").1
      (by decide)).1,
   (session_state_machine AppState.new "scan_1").2.2.1 (by decide),
   ((session_state_machine AppState.new "scan_3").2.2.2 (by decide)).2⟩

end DupDetector
